import Mathlib

/-!
Verification of the secnews paper-tracking pipeline.

The definitions below are a shallow embedding of the Python sources under
`secnews/`: `utils_db.py` (the JSON-file record store), `utils_search.py`
(feed ingestion and the resumable search loop), `utils_summary.py`
(summarization and the two classification passes) and `utils_comms.py`
(the publication stage).  Python dicts holding paper records are embedded
as a structure with `Option` fields for the keys that may be absent;
Python strings are Lean `String`s, compared by code points exactly as
Python compares them.
-/

set_option maxHeartbeats 1000000

/-- Lexicographic code-point comparison of character lists, matching
Python's `<` on `str`. -/
def strLt : List Char → List Char → Bool
  | [], [] => false
  | [], _ :: _ => true
  | _ :: _, [] => false
  | a :: as, b :: bs => a.toNat < b.toNat || (a = b && strLt as bs)

/-- Python's `s >= t` on strings: the negation of `s < t`. -/
def pyGe (s t : String) : Bool := !(strLt s.data t.data)

/-- A paper record: the embedding of the Python dicts stored by `PaperDB`.
Keys that a record may lack (`summarized` before ingestion sets it,
the summary fields, `relevant`, `projects`, `interest_score`) are
`Option`s; `none` means the key is absent from the dict. -/
structure Record where
  id : String
  url : String
  published : String
  title : String
  authors : List String
  downloaded : Bool
  summarized : Option Bool
  points : Option (List String)
  one_liner : Option String
  emoji : Option String
  tag : Option String
  affiliations : Option (List String)
  relevant : Option Bool
  projects : Option (List String)
  interest_score : Option Int
  deriving DecidableEq, Repr

/-- A record with every optional key absent; concrete records below
override the fields they set. -/
def emptyRecord : Record where
  id := ""
  url := ""
  published := ""
  title := ""
  authors := []
  downloaded := false
  summarized := none
  points := none
  one_liner := none
  emoji := none
  tag := none
  affiliations := none
  relevant := none
  projects := none
  interest_score := none

/-! ## PaperDB.find and PaperDB.reset_summarized (utils_db.py) -/

/-- `PaperDB.find(published_gte, summarized)`: filter by
`r["published"] >= published_gte` and `r.get("summarized") == summarized`,
in storage order. -/
def find (db : List Record) (published_gte : Option String)
    (summarized : Option Bool) : List Record :=
  let r1 := match published_gte with
    | none => db
    | some w => db.filter (fun r => pyGe r.published w)
  match summarized with
  | none => r1
  | some b => r1.filter (fun r => r.summarized == some b)

/-- The body of the loop in `PaperDB.reset_summarized`: a record in the
window with a truthy `summarized` flag is flipped to `False` and has the
eight listed keys popped. -/
def resetOne (published_gte : String) (r : Record) : Record :=
  if pyGe r.published published_gte && (r.summarized == some true) then
    { r with summarized := some false, points := none, one_liner := none,
             emoji := none, tag := none, affiliations := none,
             relevant := none, projects := none, interest_score := none }
  else r

/-- `PaperDB.reset_summarized(published_gte)`: maps `resetOne` over the
store and counts the mutated records. -/
def reset_summarized (db : List Record) (published_gte : String) :
    List Record × Nat :=
  (db.map (resetOne published_gte),
   db.countP (fun r =>
     pyGe r.published published_gte && (r.summarized == some true)))

/-! ## share_results selection (utils_comms.py) -/

/-- The record-selection part of `share_results`: `find(published_gte=
pull_window, summarized=True)`, then, unless `include_all`, keep records
with `r.get("relevant") is True`.  The markdown and HTML bodies are
rendered by joining the per-record formatters over this list in this
exact order — the function contains no sorting step. -/
def share_records (db : List Record) (pull_window : String)
    (include_all : Bool) : List Record :=
  let records := find db (some pull_window) (some true)
  if include_all then records
  else records.filter (fun r => r.relevant == some true)

/-! ## classify_relevance and classify_project_relevance (utils_summary.py) -/

/-- The model boundary for the relevance pass: `none` embeds a failed
call or unparseable response; otherwise the parsed JSON object, whose
`relevant` key may be absent. -/
structure RelResp where
  relevant : Option Bool
  deriving DecidableEq, Repr

/-- One iteration of the loop in `classify_relevance`, acting on the
record it updates.  Returns the updated record and whether the model was
called.  Mirrors: skip when `"relevant" in record`; auto-false when
`record.get("tag", "general") == "general"`; otherwise take
`loaded.get("relevant", True)`, with `True` on any call/parse error. -/
def classify_relevance_step (resp : Option RelResp) (r : Record) :
    Record × Bool :=
  if r.relevant.isSome then (r, false)
  else if r.tag.getD "general" = "general" then
    ({ r with relevant := some false }, false)
  else
    match resp with
    | none => ({ r with relevant := some true }, true)
    | some j => ({ r with relevant := some (j.relevant.getD true) }, true)

/-- The model boundary for the project pass: `none` embeds a failed call
or unparseable response; otherwise the parsed object, whose `projects`
key may be absent (then `loaded.get("projects", [])` yields `[]`). -/
structure ProjResp where
  projects : Option (List String)
  deriving DecidableEq, Repr

/-- One iteration of the loop in `classify_project_relevance`: skip when
`"projects" in record`; on success keep only ids in `valid_ids`; on any
error write `[]`. -/
def classify_project_step (valid_ids : List String) (resp : Option ProjResp)
    (r : Record) : Record :=
  if r.projects.isSome then r
  else
    match resp with
    | none => { r with projects := some [] }
    | some j =>
        let matched := (j.projects.getD []).filter (fun p => p ∈ valid_ids)
        { r with projects := some matched }

/-! ## _normalize_date (utils_db.py)

`_normalize_date` runs `iso_str.replace("Z", "+00:00")`, parses with
`datetime.fromisoformat`, converts to UTC with `astimezone`, and formats
with `strftime("%Y-%m-%dT%H:%M:%SZ")`.  The embedding models the
accepted inputs as the aware extended-format timestamps the pipeline
handles: `YYYY-MM-DD` + (`T` or space) + `HH:MM:SS` + a UTC offset
(`Z`, handled by the replace, or `±HH:MM`), at whole-second precision,
with the field ranges `datetime` enforces (years 1–9999, valid month
lengths, offsets below 24 hours); naive or otherwise malformed strings
map to `none`, as does the `OverflowError` when the UTC result leaves
the representable year range. -/

/-- The decimal digit character for `n < 10`. -/
def toDigit (n : Nat) : Char := Char.ofNat (48 + n)

/-- Decimal value of an ASCII digit character, `none` otherwise. -/
def digVal (c : Char) : Option Nat :=
  if 48 ≤ c.toNat ∧ c.toNat ≤ 57 then some (c.toNat - 48) else none

/-- Two-digit zero-padded decimal, as `strftime("%m")` and friends. -/
def pad2 (n : Nat) : List Char := [toDigit (n / 10 % 10), toDigit (n % 10)]

/-- Four-digit zero-padded decimal, as `strftime("%Y")`. -/
def pad4 (n : Nat) : List Char := pad2 (n / 100) ++ pad2 (n % 100)

/-- Gregorian leap-year test. -/
def isLeapYear (y : Nat) : Bool := (y % 4 == 0 && y % 100 != 0) || y % 400 == 0

/-- Length of month `m` (1–12) given the leap flag. -/
def monthLen (L : Bool) : Nat → Nat
  | 1 => 31
  | 2 => if L then 29 else 28
  | 3 => 31
  | 4 => 30
  | 5 => 31
  | 6 => 30
  | 7 => 31
  | 8 => 31
  | 9 => 30
  | 10 => 31
  | 11 => 30
  | 12 => 31
  | _ => 0

/-- Days of the year strictly before month `m`. -/
def daysBefore (L : Bool) : Nat → Nat
  | 0 => 0
  | 1 => 0
  | m + 2 => daysBefore L (m + 1) + monthLen L (m + 1)

/-- Leap days among years `1..n`. -/
def leapsBefore (n : Nat) : Nat := n / 4 - n / 100 + n / 400

/-- Proleptic-Gregorian ordinal of a date (`ord 1 1 1 = 1`), the
denotation a calendar date has as a day count. -/
def ordDate (y m d : Nat) : Nat :=
  365 * (y - 1) + leapsBefore (y - 1) + daysBefore (isLeapYear y) m + d

/-- A calendar date. -/
structure Date where
  y : Nat
  m : Nat
  d : Nat
  deriving DecidableEq, Repr

/-- A date `datetime` can hold (month in range, day within the month);
the year-9999 cap is checked separately where it matters. -/
def validDate (c : Date) : Prop :=
  1 ≤ c.y ∧ 1 ≤ c.m ∧ c.m ≤ 12 ∧ 1 ≤ c.d ∧
    c.d ≤ monthLen (isLeapYear c.y) c.m

instance (c : Date) : Decidable (validDate c) := by
  unfold validDate; infer_instance

/-- Calendar successor of a date. -/
def nextDay (c : Date) : Date :=
  if c.d < monthLen (isLeapYear c.y) c.m then ⟨c.y, c.m, c.d + 1⟩
  else if c.m < 12 then ⟨c.y, c.m + 1, 1⟩
  else ⟨c.y + 1, 1, 1⟩

/-- Calendar predecessor of a date. -/
def prevDay (c : Date) : Date :=
  if 1 < c.d then ⟨c.y, c.m, c.d - 1⟩
  else if 1 < c.m then ⟨c.y, c.m - 1, monthLen (isLeapYear c.y) (c.m - 1)⟩
  else ⟨c.y - 1, 12, 31⟩

/-- A parsed aware timestamp: calendar date, time of day, and the UTC
offset in seconds. -/
structure DT where
  date : Date
  h : Nat
  mi : Nat
  s : Nat
  off : Int
  deriving DecidableEq, Repr

/-- Seconds since the proleptic epoch: the instant a parsed timestamp
denotes. -/
def epochSec (dt : DT) : Int :=
  86400 * (ordDate dt.date.y dt.date.m dt.date.d : Int) +
    ((dt.h * 3600 + dt.mi * 60 + dt.s : Nat) : Int) - dt.off

/-- `iso_str.replace("Z", "+00:00")`. -/
def replaceZ : List Char → List Char
  | [] => []
  | c :: rest =>
      (if c = 'Z' then ['+', '0', '0', ':', '0', '0'] else [c]) ++ replaceZ rest

/-- Take the next character. -/
def readCh : List Char → Option (Char × List Char)
  | c :: rest => some (c, rest)
  | [] => none

/-- Require a specific next character. -/
def expectCh (c : Char) : List Char → Option (List Char)
  | x :: rest => if x = c then some rest else none
  | [] => none

/-- Read a two-digit decimal field. -/
def read2 (l : List Char) : Option (Nat × List Char) := do
  let (a, l) ← readCh l
  let (b, l) ← readCh l
  let x ← digVal a
  let y ← digVal b
  return (10 * x + y, l)

/-- Read a four-digit decimal field. -/
def read4 (l : List Char) : Option (Nat × List Char) := do
  let (a, l) ← read2 l
  let (b, l) ← read2 l
  return (100 * a + b, l)

/-- Parse the `±HH:MM` offset suffix into signed seconds. -/
def parseOff (l : List Char) : Option Int := do
  let (sg, l) ← readCh l
  let (oh, l) ← read2 l
  let l ← expectCh ':' l
  let (om, l) ← read2 l
  if l = [] ∧ oh ≤ 23 ∧ om ≤ 59 then
    if sg = '+' then return ((oh * 3600 + om * 60 : Nat) : Int)
    else if sg = '-' then return -((oh * 3600 + om * 60 : Nat) : Int)
    else none
  else none

/-- Parse the `YYYY-MM-DD` part. -/
def parseYMD (l : List Char) : Option (Nat × Nat × Nat × List Char) := do
  let (yr, l) ← read4 l
  let l ← expectCh '-' l
  let (mo, l) ← read2 l
  let l ← expectCh '-' l
  let (dy, l) ← read2 l
  return (yr, mo, dy, l)

/-- Parse the separator and the `HH:MM:SS` part. -/
def parseHMS (l : List Char) : Option (Char × Nat × Nat × Nat × List Char) := do
  let (sep, l) ← readCh l
  let (hh, l) ← read2 l
  let l ← expectCh ':' l
  let (mm, l) ← read2 l
  let l ← expectCh ':' l
  let (ss, l) ← read2 l
  return (sep, hh, mm, ss, l)

/-- Parse `YYYY-MM-DD[T ]HH:MM:SS±HH:MM` with `datetime`'s range
checks. -/
def parseTS (l : List Char) : Option DT := do
  let (yr, mo, dy, l) ← parseYMD l
  let (sep, hh, mm, ss, l) ← parseHMS l
  let off ← parseOff l
  if (sep = 'T' ∨ sep = ' ') ∧ 1 ≤ yr ∧ 1 ≤ mo ∧ mo ≤ 12 ∧ 1 ≤ dy ∧
      dy ≤ monthLen (isLeapYear yr) mo ∧ hh ≤ 23 ∧ mm ≤ 59 ∧ ss ≤ 59 then
    return ⟨⟨yr, mo, dy⟩, hh, mm, ss, off⟩
  else none

/-- `fromisoformat` after the `Z` replacement. -/
def readTS (s : String) : Option DT := parseTS (replaceZ s.data)

/-- The date-and-time part of the output format. -/
def coreFormat (c : Date) (h mi s : Nat) : List Char :=
  pad4 c.y ++ '-' :: pad2 c.m ++ '-' :: pad2 c.d ++ 'T' :: pad2 h ++
    ':' :: pad2 mi ++ ':' :: pad2 s

/-- `strftime("%Y-%m-%dT%H:%M:%SZ")`. -/
def formatUTC (c : Date) (h mi s : Nat) : List Char :=
  coreFormat c h mi s ++ ['Z']

/-- `astimezone(timezone.utc)` on a parsed timestamp: shift the time of
day by the offset; since the offset is below one day the calendar date
moves by at most one day. -/
def convDT (dt : DT) : Date × Nat :=
  let t : Int := ((dt.h * 3600 + dt.mi * 60 + dt.s : Nat) : Int) - dt.off
  if t < 0 then (prevDay dt.date, (t + 86400).toNat)
  else if 86400 ≤ t then (nextDay dt.date, (t - 86400).toNat)
  else (dt.date, t.toNat)

/-- `_normalize_date`: parse, convert to UTC, format.  `none` on a
parse failure or on `astimezone`'s `OverflowError` at the year bounds. -/
def _normalize_date (s : String) : Option String :=
  match readTS s with
  | none => none
  | some dt =>
    let p := convDT dt
    if 1 ≤ p.1.y ∧ p.1.y ≤ 9999 then
      some (String.mk (formatUTC p.1 (p.2 / 3600) (p.2 % 3600 / 60) (p.2 % 60)))
    else none

/-! ## process_feed and assemble_feeds (utils_search.py) -/

/-- Python `s.replace(old, new)` (all occurrences) on character lists,
for a non-empty `old`; structural on a fuel argument that the wrapper
sets to the list length, which the recursion never exhausts (it always
consumes at least one character per step). -/
def replaceAllF (old new : List Char) : Nat → List Char → List Char
  | 0, s => s
  | _ + 1, [] => []
  | fuel + 1, c :: rest =>
    if old.isPrefixOf (c :: rest) && !old.isEmpty then
      new ++ replaceAllF old new fuel (rest.drop (old.length - 1))
    else
      c :: replaceAllF old new fuel rest

def replaceAll (old new s : List Char) : List Char :=
  replaceAllF old new s.length s

/-- Python `s.split(sep)` for a non-empty `sep`: the list of pieces
between occurrences of `sep`; never empty.  Fuel as in `replaceAllF`. -/
def splitAllF (sep : List Char) : Nat → List Char → List (List Char)
  | 0, _ => [[]]
  | _ + 1, [] => [[]]
  | fuel + 1, c :: rest =>
    if sep.isPrefixOf (c :: rest) && !sep.isEmpty then
      [] :: splitAllF sep fuel (rest.drop (sep.length - 1))
    else
      match splitAllF sep fuel rest with
      | [] => [[c]]
      | p :: ps => (c :: p) :: ps

def splitAll (sep s : List Char) : List (List Char) :=
  splitAllF sep s.length s

/-- `s.split(sep)[-1]` — Python's split never returns an empty list, so
the negative index is safe. -/
def lastSplit (sep : List Char) (l : List Char) : List Char :=
  (splitAll sep l).getLastD []

/-- A decoded feed entry: `entry.id`, `entry.published`, `entry.title`,
and the author names already extracted by
`[a.get("name", "") for a in getattr(entry, "authors", [])]`. -/
structure Entry where
  id : String
  published : String
  title : String
  authors : List String
  deriving DecidableEq, Repr

/-- The candidate record `process_feed` builds from one entry:
`url = "%s.pdf" % entry.id.replace("abs", "pdf")` and
`id = entry.id.split("/abs/")[-1]`. -/
def entryObj (e : Entry) : Record :=
  { emptyRecord with
      id := String.mk (lastSplit "/abs/".data e.id.data),
      url := String.mk (replaceAll "abs".data "pdf".data e.id.data) ++ ".pdf",
      published := e.published,
      title := e.title,
      authors := e.authors,
      downloaded := false,
      summarized := some false }

/-- `PaperDB.has_url`. -/
def has_url (db : List Record) (url : String) : Bool :=
  db.any (fun r => r.url == url)

/-- `PaperDB.insert`: append a copy of the record with its `published`
date normalized; `none` embeds the exception `_normalize_date` raises on
a date it cannot parse. -/
def insertRec (db : List Record) (r : Record) : Option (List Record) :=
  (_normalize_date r.published).map
    (fun p => db ++ [{ r with published := p }])

/-- `process_feed(response, paper_db)`: decode each entry, collect the
candidate list, and insert a candidate when its `url` is not already
stored.  Returns `(candidates, new store)`; `none` when an insert
raises. -/
def process_feed (db : List Record) : List Entry →
    Option (List Record × List Record)
  | [] => some ([], db)
  | e :: es =>
    let o := entryObj e
    match (if has_url db o.url then some db else insertRec db o) with
    | none => none
    | some db1 =>
      match process_feed db1 es with
      | none => none
      | some (res, db2) => some (o :: res, db2)

/-- The concatenation loop of `assemble_feeds`, before deduplication. -/
def assembleRaw (db : List Record) : List (List Entry) →
    Option (List Record × List Record)
  | [] => some ([], db)
  | f :: fs =>
    match process_feed db f with
    | none => none
    | some (res, db1) =>
      match assembleRaw db1 fs with
      | none => none
      | some (res2, db2) => some (res ++ res2, db2)

/-- The `seen`-set loop of `assemble_feeds`: keep the first record for
each `url`. -/
def dedupBy (seen : List String) : List Record → List Record
  | [] => []
  | r :: rs =>
    if r.url ∈ seen then dedupBy seen rs
    else r :: dedupBy (r.url :: seen) rs

/-- `assemble_feeds(feeds, paper_db)`: process every feed payload, then
deduplicate the combined candidate list by `url`, first seen wins. -/
def assemble_feeds (db : List Record) (feeds : List (List Entry)) :
    Option (List Record × List Record) :=
  match assembleRaw db feeds with
  | none => none
  | some (res, db') => some (dedupBy [] res, db')

/-- All candidates a call decodes, in decode order (each feed's entries
in order, feeds in order): `process_feed` always appends the candidate
to its result list, so the combined pre-deduplication list is exactly
this. -/
def candidateList : List (List Entry) → List Record
  | [] => []
  | f :: fs => f.map entryObj ++ candidateList fs

/-- Number of stored records with the given url. -/
def countUrl (db : List Record) (u : String) : Nat :=
  db.countP (fun r => r.url == u)

/-! ## execute_searches (utils_search.py) -/

/-- The envelope fields of one search-feed response page:
`opensearch_totalresults`, `opensearch_startindex`, `len(feed.entries)`. -/
structure Page where
  total : Nat
  startIx : Nat
  entries : Nat
  deriving DecidableEq, Repr

/-- One entry of the `params` list passed to `execute_searches`. -/
structure QItem where
  query : String
  start : Nat
  maxResults : Nat
  deriving DecidableEq, Repr

/-- The search-state file: a map from query string to the timestamp of
its last completion, embedded as an association list. -/
def SState := List (String × String)

/-- Dict lookup. -/
def stLookup (st : SState) (k : String) : Option String :=
  match st with
  | [] => none
  | (k', v) :: rest => if k' = k then some v else stLookup rest k

/-- Dict assignment `state[k] = v`. -/
def stSet (st : SState) (k v : String) : SState :=
  match st with
  | [] => [(k, v)]
  | (k', v') :: rest =>
    if k' = k then (k, v) :: rest else (k', v') :: stSet rest k v

/-- The pagination loop of `execute_searches` for one query: the
network is an oracle from the current offset to either a fatal
transport error or a response page.  Collects the pages it fetched;
stops when the page is short or the offset reaches the reported total,
else advances the offset.  The loop need not terminate on adversarial
envelopes, so it runs on fuel: `none` is the marker for a run that is
still looping after `fuel` requests. -/
def paginate (net : Nat → Except String Page) (maxRes : Nat) :
    Nat → Nat → Option (Except String (List Page))
  | _, 0 => none
  | start, fuel + 1 =>
    match net start with
    | .error e => some (.error e)
    | .ok pg =>
      if pg.entries < maxRes ∨ pg.total ≤ pg.startIx + pg.entries then
        some (.ok [pg])
      else
        match paginate net maxRes (pg.startIx + pg.entries) fuel with
        | none => none
        | some (.error e) => some (.error e)
        | some (.ok rest) => some (.ok (pg :: rest))

/-- The per-query skip test:
`not force and search_query in state and state[search_query] >= cutoff`. -/
def skipQ (force : Bool) (st : SState) (cutoff : String) (q : QItem) : Bool :=
  !force && ((stLookup st q.query).map (fun t => pyGe t cutoff)).getD false

/-- `execute_searches`: walk the query list threading the persisted
state.  A skipped query touches nothing; an executed query's completion
timestamp is written (and saved) immediately after its pagination loop
finishes, before the next query starts; a transport error propagates at
once, returning `Except.error (some e)` along with the state persisted
so far (`Except.error none` is the fuel marker). -/
def execute_searches (net : String → Nat → Except String Page)
    (cutoff now : String) (force : Bool) (fuel : Nat) :
    List QItem → SState → SState × Except (Option String) (List Page)
  | [], st => (st, .ok [])
  | q :: qs, st =>
    if skipQ force st cutoff q then
      execute_searches net cutoff now force fuel qs st
    else
      match paginate (net q.query) q.maxResults q.start fuel with
      | none => (st, .error none)
      | some (.error e) => (st, .error (some e))
      | some (.ok pages) =>
        match execute_searches net cutoff now force fuel qs
            (stSet st q.query now) with
        | (stF, .ok more) => (stF, .ok (pages ++ more))
        | (stF, .error e) => (stF, .error e)

/-! ## summarize_records and _validate_affiliations (utils_summary.py) -/

/-- Substring test on character lists: does `needle` occur contiguously
inside `hay`?  Embeds Python's `in` on strings. -/
def subIn (needle : List Char) : List Char → Bool
  | [] => needle = []
  | c :: rest => needle.isPrefixOf (c :: rest) || subIn needle rest

/-- Split a character list at every whitespace character, keeping the
(possibly empty) pieces between them. -/
def splitOnWS : List Char → List (List Char)
  | [] => [[]]
  | c :: rest =>
    if c.isWhitespace then [] :: splitOnWS rest
    else
      match splitOnWS rest with
      | [] => [[c]]
      | p :: ps => (c :: p) :: ps

/-- Python `str.split()` (no argument): split on runs of whitespace,
dropping empty pieces. -/
def pySplitWS (s : String) : List String :=
  ((splitOnWS s.data).filter (fun w => w ≠ [])).map String.mk

/-- `name.split()[-1].lower()` for one author name: `none` embeds the
`IndexError` Python raises when the name contains no non-whitespace
character (an exception the stage's generic handler turns into a skip). -/
def lastNameLower (name : String) : Option String :=
  match pySplitWS name with
  | [] => none
  | w :: ws => some (String.mk (((w :: ws).getLast (by simp)).data.map Char.toLower))

/-- Evaluate `lastNameLower` over a list of names, propagating the
exception: the set-comprehension
`\x7bname.split()[-1].lower() for name in arxiv_authors if name\x7d` before
deduplication. -/
def lastNames : List String → Option (List String)
  | [] => some []
  | n :: ns => do
    let x ← lastNameLower n
    let rest ← lastNames ns
    return x :: rest

/-- `_validate_affiliations(affiliations, arxiv_authors, pdf_text, ...)`:
build the set of lowercased last names of the non-empty author names;
if that set is empty keep `affiliations`; otherwise count how many of
the distinct last names occur in the lowercased first 3000 characters of
`pdf_text` and discard `affiliations` to `[]` when the matched fraction
is below one half.  `none` embeds the exception path described in
`lastNameLower`. -/
def _validate_affiliations (affiliations : List String)
    (arxiv_authors : List String) (pdf_text : String) :
    Option (List String) := do
  let names ← lastNames (arxiv_authors.filter (fun n => n ≠ ""))
  let nset := names.dedup
  if nset = [] then
    return affiliations
  else
    let pdf_lower := (pdf_text.data.take 3000).map Char.toLower
    let matched := nset.countP (fun n => subIn n.data pdf_lower)
    if 2 * matched < nset.length then return [] else return affiliations

/-- The call-site guard in `summarize_records`:
`if affiliations and arxiv_authors: affiliations = _validate_affiliations(...)`. -/
def affiliationFilter (affiliations : List String)
    (arxiv_authors : List String) (pdf_text : String) :
    Option (List String) :=
  if affiliations ≠ [] ∧ arxiv_authors ≠ [] then
    _validate_affiliations affiliations arxiv_authors pdf_text
  else some affiliations

/-- A JSON value supplied for `interest_score`: either something
`int()` converts, or a value on which `int()` raises. -/
inductive JNum where
  | int (i : Int) : JNum
  | bad : JNum
  deriving DecidableEq, Repr

/-- The summarizer's parsed JSON response; each key may be absent.
`none` at the `Option SumResp` layer (below) embeds a failed call or a
body `json.loads` rejects. -/
structure SumResp where
  findings : Option (List String)
  one_liner : Option String
  emoji : Option String
  tag : Option String
  affiliations : Option (List String)
  interest_score : Option JNum
  deriving DecidableEq, Repr

/-- `int(loaded.get("interest_score", 5))` clamped by
`max(1, min(10, raw))`, with 5 on `TypeError`/`ValueError`. -/
def clampScore (j : Option JNum) : Int :=
  match j with
  | none => 5
  | some (.int i) => max 1 (min 10 i)
  | some .bad => 5

/-- One iteration of the loop in `summarize_records`, as the net effect
on the record being processed.  `pdfText` is the extracted text when a
readable PDF was obtained (after the fallback download), `none`
otherwise; `resp` is the model response.  Any exception — unreadable
PDF, failed call, unparseable body, the `KeyError` on a missing
`findings` or `one_liner`, or the affiliation-validation error — leaves
the record untouched; on success a single update sets `summarized=True`
and the six summary fields together. -/
def summarize_step (pdfText : Option String) (resp : Option SumResp)
    (r : Record) : Record :=
  match pdfText with
  | none => r
  | some text =>
    match resp with
    | none => r
    | some j =>
      match affiliationFilter (j.affiliations.getD []) r.authors text with
      | none => r
      | some affs =>
        match j.findings, j.one_liner with
        | some f, some ol =>
            { r with summarized := some true, points := some f,
                     one_liner := some ol,
                     emoji := some (j.emoji.getD "🔍"),
                     tag := some (j.tag.getD "general"),
                     affiliations := some affs,
                     interest_score := some (clampScore j.interest_score) }
        | _, _ => r

/-- The distinct lowercased surnames of the non-empty author names: the
set the validation measures its fraction over. -/
def surnameSet (authors : List String) : List String :=
  ((authors.filter (fun n => n ≠ "")).filterMap lastNameLower).dedup

/-- How many of the distinct surnames occur in the lowercased first
3000 characters of the extracted text. -/
def surnameMatches (authors : List String) (text : String) : Nat :=
  (surnameSet authors).countP
    (fun n => subIn n.data ((text.data.take 3000).map Char.toLower))

/-! ## Concrete instances used by witnesses and counterexamples -/

/-- A summarized, classified record inside the reset window. -/
def rC2 : Record :=
  { emptyRecord with
      id := "p1", url := "http://arxiv.org/pdf/p1.pdf",
      published := "2026-02-10T00:00:00Z", title := "Reset Target",
      downloaded := true, summarized := some true,
      points := some ["a", "b", "c"], one_liner := some "One liner.",
      emoji := some "📄", tag := some "security",
      affiliations := some ["MIT"], relevant := some true,
      projects := some ["proj1"], interest_score := some 7 }

/-- The three publication-stage records of the ordering scenario,
scores 3, 9 and 6, in insertion order. -/
def rLow : Record :=
  { emptyRecord with
      id := "sort-3", url := "http://arxiv.org/pdf/sort-3.pdf",
      published := "2026-02-10T00:00:00Z", title := "Low Score Paper",
      downloaded := true, summarized := some true, emoji := some "📄",
      tag := some "security", relevant := some true,
      one_liner := some "Score 3 paper.", points := some ["A"],
      interest_score := some 3 }

def rHigh : Record :=
  { rLow with id := "sort-9", url := "http://arxiv.org/pdf/sort-9.pdf",
              title := "High Score Paper", one_liner := some "Score 9 paper.",
              interest_score := some 9 }

def rMid : Record :=
  { rLow with id := "sort-6", url := "http://arxiv.org/pdf/sort-6.pdf",
              title := "Mid Score Paper", one_liner := some "Score 6 paper.",
              interest_score := some 6 }

/-- An unclassified summarized record tagged `security`. -/
def rSec : Record :=
  { emptyRecord with
      id := "s1", url := "http://arxiv.org/pdf/s1.pdf",
      published := "2026-02-10T00:00:00Z", title := "Security Paper",
      downloaded := true, summarized := some true, tag := some "security",
      one_liner := some "About attacks." }

/-- An unclassified summarized record with no `tag` key. -/
def rNoTag : Record :=
  { emptyRecord with
      id := "s2", url := "http://arxiv.org/pdf/s2.pdf",
      published := "2026-02-10T00:00:00Z", title := "Untagged Paper",
      downloaded := true, summarized := some true,
      one_liner := some "No tag." }

/-- Two feed entries, the first of which recurs across payloads. -/
def eAlpha : Entry :=
  ⟨"http://arxiv.org/abs/2501.00001v1", "2025-05-01T00:00:00Z",
   "Paper One", ["Alice Smith"]⟩

def eBeta : Entry :=
  ⟨"http://arxiv.org/abs/2502.00002v1", "2025-05-02T03:00:00+03:00",
   "Paper Two", []⟩

/-- Two payloads of the same call containing a repeated entry. -/
def feedsEx : List (List Entry) := [[eAlpha, eBeta], [eAlpha]]

/-- The candidate list and store `assemble_feeds` produces on `feedsEx`
from an empty store. -/
def candsEx : List Record := ((assemble_feeds [] feedsEx).getD ([], [])).1

def dbEx : List Record := ((assemble_feeds [] feedsEx).getD ([], [])).2

/-- A transport oracle that answers every query with a single short
page except `"qb"`, on which it raises. -/
def netEx : String → Nat → Except String Page := fun s n =>
  if s = "qb" then .error "boom" else .ok ⟨5, n, 5⟩

def qEx1 : QItem := ⟨"qa", 0, 10⟩

def qEx2 : QItem := ⟨"qb", 0, 10⟩

def qEx3 : QItem := ⟨"qc", 0, 10⟩

/-! ## C2 — reset cascade -/

/-- C2 (counterexample): the claim says a reset record's `relevant` and
`projects` are not removed; on `rC2` (summarized, in-window, with
`relevant=true` and `projects=["proj1"]`) the reset removes both. -/
theorem reset_removes_relevant_and_projects :
    rC2.relevant = some true ∧ rC2.projects = some ["proj1"] ∧
    (reset_summarized [rC2] "2026-02-01T00:00:00Z").1.map Record.relevant =
      [none] ∧
    (reset_summarized [rC2] "2026-02-01T00:00:00Z").1.map Record.projects =
      [none] := by
  decide

/-- C2 (amended): `reset_summarized W` flips every record with
`published ≥ W` and `summarized = true` to `summarized = false` and
removes all of `points`, `one_liner`, `emoji`, `tag`, `affiliations`,
`interest_score` and also `relevant` and `projects`; every other record
is unchanged; the store keeps its length. -/
theorem reset_summarized_spec (db : List Record) (w : String) (i : Nat)
    (hi : i < db.length) :
    (reset_summarized db w).1.length = db.length ∧
    ((reset_summarized db w).1.getD i emptyRecord =
      if pyGe (db.getD i emptyRecord).published w ∧
          (db.getD i emptyRecord).summarized = some true then
        { db.getD i emptyRecord with
            summarized := some false, points := none, one_liner := none,
            emoji := none, tag := none, affiliations := none,
            relevant := none, projects := none, interest_score := none }
      else db.getD i emptyRecord) := by
  constructor
  · simp [reset_summarized]
  · simp only [reset_summarized, List.getD_eq_getElem?_getD, List.getElem?_map]
    rw [List.getElem?_eq_getElem hi]
    simp only [Option.map_some', Option.getD_some, resetOne]
    split
    · next h =>
        rw [if_pos]
        simp only [Bool.and_eq_true, beq_iff_eq] at h
        exact ⟨h.1, h.2⟩
    · next h =>
        rw [if_neg]
        simp only [Bool.and_eq_true, beq_iff_eq] at h
        intro hc
        exact h ⟨hc.1, hc.2⟩

/-- C2 (witness): the amended statement applied to the one-record store. -/
theorem reset_summarized_spec_witness :
    (0 < [rC2].length) ∧
    ((reset_summarized [rC2] "2026-02-01T00:00:00Z").1.length =
        [rC2].length ∧
      (reset_summarized [rC2] "2026-02-01T00:00:00Z").1.getD 0 emptyRecord =
        if pyGe ([rC2].getD 0 emptyRecord).published "2026-02-01T00:00:00Z" ∧
            ([rC2].getD 0 emptyRecord).summarized = some true then
          { [rC2].getD 0 emptyRecord with
              summarized := some false, points := none, one_liner := none,
              emoji := none, tag := none, affiliations := none,
              relevant := none, projects := none, interest_score := none }
        else [rC2].getD 0 emptyRecord) :=
  ⟨by decide, reset_summarized_spec [rC2] "2026-02-01T00:00:00Z" 0 (by decide)⟩

/-! ## C3 — publication ordering -/

/-- C3 (code evaluated at the failing input): with the three relevant
summarized records of scores 3, 9, 6 stored in that order,
`share_results` renders them in storage order — `interest_score`s
`[3, 9, 6]` — not in the descending order 9, 6, 3 that the spec and the
repository's own test
`test_comms.py::test_records_sorted_by_interest_score` require; the
selection contains no sorting step. -/
theorem share_records_not_sorted :
    (share_records [rLow, rHigh, rMid] "2026-02-01T00:00:00Z" false).map
        Record.title =
      ["Low Score Paper", "High Score Paper", "Mid Score Paper"] ∧
    (share_records [rLow, rHigh, rMid] "2026-02-01T00:00:00Z" false).map
        Record.interest_score =
      [some 3, some 9, some 6] := by
  decide

/-! ## C8 — relevance classification -/

/-- C8: a record with `relevant` already set is returned unchanged with
no model call; an unclassified record whose tag defaults to or equals
`"general"` gets `relevant=false` with no model call; any other
unclassified record gets the model's answer, defaulting to `true` when
the call fails, the response is unparseable, or the `relevant` key is
absent — and the step writes no field other than `relevant`. -/
theorem classify_relevance_step_spec (resp : Option RelResp) (r : Record) :
    (r.relevant.isSome → classify_relevance_step resp r = (r, false)) ∧
    (r.relevant = none → r.tag.getD "general" = "general" →
      classify_relevance_step resp r =
        ({ r with relevant := some false }, false)) ∧
    (r.relevant = none → r.tag.getD "general" ≠ "general" →
      classify_relevance_step resp r =
        ({ r with relevant := some ((resp.bind RelResp.relevant).getD true) },
         true)) ∧
    (classify_relevance_step resp r).1 =
      { r with relevant := (classify_relevance_step resp r).1.relevant } := by
  refine ⟨?_, ?_, ?_, ?_⟩
  · intro h
    simp [classify_relevance_step, h]
  · intro h1 h2
    simp [classify_relevance_step, h1, h2]
  · intro h1 h2
    cases resp with
    | none => simp [classify_relevance_step, h1, h2, Option.bind]
    | some j => simp [classify_relevance_step, h1, h2, Option.bind]
  · unfold classify_relevance_step
    cases hr : r.relevant with
    | some b => simp
    | none =>
      by_cases ht : r.tag.getD "general" = "general"
      · simp [ht]
      · cases resp with
        | none => simp [ht]
        | some j => simp [ht]

/-- C8 (witness): the fail-open default on a failed call for a
`security`-tagged unclassified record. -/
theorem classify_relevance_step_spec_witness :
    classify_relevance_step none rSec =
      ({ rSec with relevant := some true }, true) :=
  (classify_relevance_step_spec none rSec).2.2.1 rfl (by decide)

/-! ## C10 — untagged records -/

/-- C10: a record lacking both `relevant` and `tag` takes the
`"general"` default of `record.get("tag", "general")`, so the stage
sets `relevant=false` without consulting the model, whatever the model
boundary would have answered. -/
theorem classify_relevance_step_untagged (resp : Option RelResp) (r : Record)
    (h1 : r.relevant = none) (h2 : r.tag = none) :
    classify_relevance_step resp r = ({ r with relevant := some false }, false) := by
  simp [classify_relevance_step, h1, h2]

/-- C10 (witness): the untagged record `rNoTag`, with a model response
that would have said `relevant=true`. -/
theorem classify_relevance_step_untagged_witness :
    classify_relevance_step (some ⟨some true⟩) rNoTag =
      ({ rNoTag with relevant := some false }, false) :=
  classify_relevance_step_untagged (some ⟨some true⟩) rNoTag rfl rfl

/-! ## C9 — project classification -/

/-- C9: a record that already has `projects` is unchanged; otherwise
the written `projects` list is the model's list filtered to the known
catalog — hence always a subset of it — and the empty list on any
call or parse failure. -/
theorem classify_project_step_spec (valid_ids : List String)
    (resp : Option ProjResp) (r : Record) :
    (r.projects.isSome → classify_project_step valid_ids resp r = r) ∧
    (r.projects = none →
      ∃ l, classify_project_step valid_ids resp r =
          { r with projects := some l } ∧
        (∀ p ∈ l, p ∈ valid_ids) ∧
        (resp = none → l = []) ∧
        (∀ j, resp = some j →
          l = (j.projects.getD []).filter (fun p => p ∈ valid_ids))) := by
  constructor
  · intro h
    simp [classify_project_step, h]
  · intro h
    cases resp with
    | none =>
      refine ⟨[], ?_, ?_, ?_, ?_⟩
      · simp [classify_project_step, h]
      · simp
      · intro _; rfl
      · intro j hj; cases hj
    | some j =>
      refine ⟨(j.projects.getD []).filter (fun p => p ∈ valid_ids), ?_, ?_, ?_, ?_⟩
      · simp [classify_project_step, h]
      · intro p hp
        exact of_decide_eq_true (List.mem_filter.mp hp).2
      · intro hc; cases hc
      · intro j' hj'
        cases hj'
        rfl

/-- C9 (witness): a hallucinated id is dropped, a catalog id kept, for
an unclassified record. -/
theorem classify_project_step_spec_witness :
    ∃ l, classify_project_step ["proj1", "proj2"]
          (some ⟨some ["proj1", "made-up"]⟩) rSec =
        { rSec with projects := some l } ∧
      (∀ p ∈ l, p ∈ ["proj1", "proj2"]) ∧
      ((some ⟨some ["proj1", "made-up"]⟩ : Option ProjResp) = none → l = []) ∧
      (∀ j, (some ⟨some ["proj1", "made-up"]⟩ : Option ProjResp) = some j →
        l = (j.projects.getD []).filter (fun p => p ∈ ["proj1", "proj2"])) :=
  (classify_project_step_spec ["proj1", "proj2"]
    (some ⟨some ["proj1", "made-up"]⟩) rSec).2 rfl

/-! ## C7 — affiliation validation -/

/-- When every name in the list yields a last name, `lastNames` is the
`filterMap` of `lastNameLower`. -/
theorem lastNames_eq_filterMap (l : List String)
    (h : ∀ n ∈ l, (lastNameLower n).isSome) :
    lastNames l = some (l.filterMap lastNameLower) := by
  induction l with
  | nil => rfl
  | cons n ns ih =>
    have h1 : (lastNameLower n).isSome := h n (by simp)
    obtain ⟨x, hx⟩ := Option.isSome_iff_exists.mp h1
    have h2 := ih (fun m hm => h m (by simp [hm]))
    simp only [lastNames, hx, h2, Option.bind_eq_bind, Option.some_bind,
      List.filterMap_cons]
    rfl

/-- C7: with non-empty `affiliations` and a non-empty, well-formed
`authors` list, the validation keeps `affiliations` exactly when at
least half of the distinct author surnames (case-insensitively) occur
in the first 3000 characters of the extracted text, and discards them
to `[]` when the matched fraction is below one half; with empty
`authors` the model's affiliations pass through unmodified. -/
theorem affiliation_validation_spec (affs authors : List String)
    (text : String) :
    (authors = [] → affiliationFilter affs authors text = some affs) ∧
    (affs ≠ [] → authors ≠ [] → (∃ n ∈ authors, n ≠ "") →
      (∀ n ∈ authors, n ≠ "" → pySplitWS n ≠ []) →
      (affiliationFilter affs authors text =
        some (if 2 * surnameMatches authors text < (surnameSet authors).length
          then [] else affs)) ∧
      ((surnameMatches authors text : ℚ) / ((surnameSet authors).length : ℚ)
          < 1 / 2 ↔
        2 * surnameMatches authors text < (surnameSet authors).length)) := by
  constructor
  · intro h
    simp [affiliationFilter, h]
  · intro ha hau hex hwf
    have hsome : ∀ n ∈ authors.filter (fun n => n ≠ ""), (lastNameLower n).isSome := by
      intro n hn
      have hmem := List.mem_filter.mp hn
      have hne : n ≠ "" := by simpa using hmem.2
      have hsplit := hwf n hmem.1 hne
      unfold lastNameLower
      cases hps : pySplitWS n with
      | nil => exact absurd hps hsplit
      | cons w ws => simp
    have hln := lastNames_eq_filterMap _ hsome
    have hnsne : surnameSet authors ≠ [] := by
      obtain ⟨n, hn, hne⟩ := hex
      have hnf : n ∈ authors.filter (fun n => n ≠ "") := by
        rw [List.mem_filter]
        exact ⟨hn, by simpa using hne⟩
      have hs := hsome n hnf
      obtain ⟨x, hx⟩ := Option.isSome_iff_exists.mp hs
      have hxin : x ∈ (authors.filter (fun n => n ≠ "")).filterMap lastNameLower := by
        rw [List.mem_filterMap]
        exact ⟨n, hnf, hx⟩
      unfold surnameSet
      intro hc
      rw [List.dedup_eq_nil] at hc
      rw [hc] at hxin
      exact absurd hxin (List.not_mem_nil x)
    have hclen : 0 < (surnameSet authors).length := List.length_pos.mpr hnsne
    constructor
    · have hcond : affs ≠ [] ∧ authors ≠ [] := ⟨ha, hau⟩
      simp only [affiliationFilter, if_pos hcond]
      simp only [_validate_affiliations, hln, Option.bind_eq_bind,
        Option.some_bind]
      simp only [surnameMatches, surnameSet]
      split
      · next hc => exact absurd hc hnsne
      · split
        · rfl
        · rfl
    · have hq : (0 : ℚ) < ((surnameSet authors).length : ℚ) := by
        exact_mod_cast hclen
      rw [div_lt_iff₀ hq]
      constructor
      · intro h
        have h2 : ((2 * surnameMatches authors text : ℕ) : ℚ) <
            ((surnameSet authors).length : ℚ) := by
          push_cast
          linarith
        exact_mod_cast h2
      · intro h
        have h2 : ((2 * surnameMatches authors text : ℕ) : ℚ) <
            ((surnameSet authors).length : ℚ) := by exact_mod_cast h
        push_cast at h2
        linarith

/-- C7 (witness): the spec's own example — three authors, text
containing only `Smith`, 1/3 < 1/2, affiliations discarded. -/
theorem affiliation_validation_spec_witness :
    affiliationFilter ["MIT"] ["Alice Smith", "Bob Jones", "Charlie Brown"]
      "We thank Smith for comments." = some [] := by
  have h := (affiliation_validation_spec ["MIT"]
    ["Alice Smith", "Bob Jones", "Charlie Brown"]
    "We thank Smith for comments.").2
    (by decide) (by decide) (by decide) (by decide)
  rw [h.1]
  decide

/-! ## C6 — summarization atomicity -/

/-- C6: each processed record either receives one update that sets
`summarized=true` together with all six summary fields at once, or is
left completely unchanged; in particular an unreadable document, a
failed call or unparseable response, and a response missing the
load-bearing `findings` or `one_liner` keys all leave the record
untouched. -/
theorem summarize_step_spec (p : Option String) (j : Option SumResp)
    (r : Record) :
    (summarize_step p j r = r ∨
      ∃ fnd ol em tg av sc, summarize_step p j r =
        { r with summarized := some true, points := some fnd,
                 one_liner := some ol, emoji := some em, tag := some tg,
                 affiliations := some av, interest_score := some sc }) ∧
    (p = none → summarize_step p j r = r) ∧
    (j = none → summarize_step p j r = r) ∧
    (∀ jj, j = some jj → (jj.findings = none ∨ jj.one_liner = none) →
      summarize_step p j r = r) := by
  refine ⟨?_, ?_, ?_, ?_⟩
  · cases p with
    | none => exact Or.inl rfl
    | some text =>
      cases j with
      | none => exact Or.inl rfl
      | some jj =>
        simp only [summarize_step]
        cases affiliationFilter (jj.affiliations.getD []) r.authors text with
        | none => exact Or.inl rfl
        | some affs =>
          cases hf : jj.findings with
          | none => exact Or.inl rfl
          | some fnd =>
            cases ho : jj.one_liner with
            | none => exact Or.inl rfl
            | some ol =>
              exact Or.inr ⟨fnd, ol, jj.emoji.getD "🔍", jj.tag.getD "general",
                affs, clampScore jj.interest_score, rfl⟩
  · intro h
    rw [h]
    rfl
  · intro h
    cases p with
    | none => rfl
    | some text => rw [h]; rfl
  · intro jj hj hd
    cases p with
    | none => rfl
    | some text =>
      rw [hj]
      simp only [summarize_step]
      cases affiliationFilter (jj.affiliations.getD []) r.authors text with
      | none => rfl
      | some affs =>
        rcases hd with hd | hd
        · rw [hd]
        · rw [hd]
          cases jj.findings <;> rfl

/-- C6 (witness): a response missing `one_liner` leaves the record
unchanged. -/
theorem summarize_step_spec_witness :
    summarize_step (some "pdf text")
      (some ⟨some ["f1", "f2", "f3"], none, none, none, none, none⟩)
      rSec = rSec :=
  (summarize_step_spec (some "pdf text")
    (some ⟨some ["f1", "f2", "f3"], none, none, none, none, none⟩)
    rSec).2.2.2 ⟨some ["f1", "f2", "f3"], none, none, none, none, none⟩
    rfl (Or.inr rfl)

/-! ## C4 — ingestion idempotence and deduplication -/

/-- Inserting a record adds one to its url's count and leaves other
counts alone (normalization only touches `published`). -/
theorem insertRec_count (db : List Record) (r : Record) (db1 : List Record)
    (h : insertRec db r = some db1) (u : String) :
    countUrl db1 u = countUrl db u + if r.url == u then 1 else 0 := by
  unfold insertRec at h
  cases hn : _normalize_date r.published with
  | none => rw [hn] at h; cases h
  | some p =>
    rw [hn] at h
    simp only [Option.map_some', Option.some.injEq] at h
    subst h
    simp [countUrl, List.countP_append, List.countP_cons]

/-- A url that `has_url` misses has count zero. -/
theorem has_url_false_count (db : List Record) (u : String)
    (h : has_url db u = false) : countUrl db u = 0 := by
  rw [countUrl, List.countP_eq_zero]
  intro r hr
  exact List.any_eq_false.mp h r hr

/-- A url that `has_url` finds has positive count. -/
theorem has_url_true_count (db : List Record) (u : String)
    (h : has_url db u = true) : 1 ≤ countUrl db u := by
  obtain ⟨r, hr, hp⟩ := List.any_eq_true.mp h
  exact List.countP_pos_iff.mpr ⟨r, hr, hp⟩

/-- The candidate list `process_feed` returns is the decode of its
entries, whatever the store held. -/
theorem process_feed_results (es : List Entry) (db res db' : List Record)
    (h : process_feed db es = some (res, db')) : res = es.map entryObj := by
  induction es generalizing db res db' with
  | nil =>
    simp only [process_feed, Option.some.injEq, Prod.mk.injEq] at h
    simp [← h.1]
  | cons e es ih =>
    simp only [process_feed] at h
    split at h
    · cases h
    · rename_i db1 heq
      split at h
      · cases h
      · rename_i res2 db2 hp
        simp only [Option.some.injEq, Prod.mk.injEq] at h
        rw [← h.1, List.map_cons, ih db1 res2 db2 hp]

/-- Url counts across `process_feed`: starting from a store where `u`
appears at most once, afterwards `u` appears exactly once if it was
already stored or is among the entries' urls, and zero times
otherwise. -/
theorem process_feed_count (es : List Entry) (db res db' : List Record)
    (h : process_feed db es = some (res, db')) :
    ∀ u, countUrl db u ≤ 1 →
      countUrl db' u =
        if countUrl db u = 1 ∨ u ∈ es.map (fun e => (entryObj e).url)
        then 1 else 0 := by
  induction es generalizing db res db' with
  | nil =>
    intro u hu
    simp only [process_feed, Option.some.injEq, Prod.mk.injEq] at h
    rw [← h.2]
    simp only [List.map_nil, List.not_mem_nil, or_false]
    rcases Nat.le_one_iff_eq_zero_or_eq_one.mp hu with h0 | h1
    · rw [h0]; simp
    · rw [h1]; simp
  | cons e es ih =>
    intro u hu
    simp only [process_feed] at h
    split at h
    · cases h
    · rename_i db1 heq
      split at h
      · cases h
      · rename_i res2 db2 hp
        simp only [Option.some.injEq, Prod.mk.injEq] at h
        rw [← h.2]
        by_cases hb : has_url db (entryObj e).url
        · rw [if_pos hb] at heq
          cases heq
          have hih := ih db res2 db2 hp u hu
          rw [hih]
          by_cases huu : u = (entryObj e).url
          · subst huu
            have h1 : countUrl db (entryObj e).url = 1 :=
              Nat.le_antisymm hu (has_url_true_count db (entryObj e).url hb)
            simp [h1]
          · simp only [List.map_cons, List.mem_cons]
            have : ¬ u = (entryObj e).url := huu
            simp [this]
        · rw [if_neg hb] at heq
          have hb' : has_url db (entryObj e).url = false :=
            Bool.eq_false_iff.mpr hb
          have hcnt := insertRec_count db (entryObj e) db1 heq u
          by_cases huu : u = (entryObj e).url
          · subst huu
            have h0 : countUrl db (entryObj e).url = 0 :=
              has_url_false_count db (entryObj e).url hb'
            have h1 : countUrl db1 (entryObj e).url = 1 := by
              rw [hcnt, h0]
              simp
            have hih := ih db1 res2 db2 hp (entryObj e).url (by omega)
            rw [hih, h1]
            simp [h0]
          · have hne : ¬ ((entryObj e).url == u) := by
              simp only [beq_iff_eq]
              intro hc
              exact huu hc.symm
            have hsame : countUrl db1 u = countUrl db u := by
              rw [hcnt, if_neg hne]
              omega
            have hih := ih db1 res2 db2 hp u (by omega)
            rw [hih, hsame]
            simp only [List.map_cons, List.mem_cons]
            have : ¬ u = (entryObj e).url := huu
            simp [this]

/-- The combined pre-deduplication list of `assemble_feeds` is the
decode of all payloads in order. -/
theorem assembleRaw_results (feeds : List (List Entry))
    (db res db' : List Record) (h : assembleRaw db feeds = some (res, db')) :
    res = candidateList feeds := by
  induction feeds generalizing db res db' with
  | nil =>
    simp only [assembleRaw, Option.some.injEq, Prod.mk.injEq] at h
    rw [← h.1, candidateList]
  | cons f fs ih =>
    simp only [assembleRaw] at h
    split at h
    · cases h
    · rename_i res1 db1 hp
      split at h
      · cases h
      · rename_i res2 db2 hp2
        simp only [Option.some.injEq, Prod.mk.injEq] at h
        rw [← h.1, candidateList, process_feed_results f db res1 db1 hp,
          ih db1 res2 db2 hp2]

/-- Url counts across a whole `assemble_feeds` call. -/
theorem assembleRaw_count (feeds : List (List Entry))
    (db res db' : List Record) (h : assembleRaw db feeds = some (res, db')) :
    ∀ u, countUrl db u ≤ 1 →
      countUrl db' u =
        if countUrl db u = 1 ∨ u ∈ (candidateList feeds).map (fun r => r.url)
        then 1 else 0 := by
  induction feeds generalizing db res db' with
  | nil =>
    intro u hu
    simp only [assembleRaw, Option.some.injEq, Prod.mk.injEq] at h
    rw [← h.2]
    simp only [candidateList, List.map_nil, List.not_mem_nil, or_false]
    rcases Nat.le_one_iff_eq_zero_or_eq_one.mp hu with h0 | h1
    · rw [h0]; simp
    · rw [h1]; simp
  | cons f fs ih =>
    intro u hu
    simp only [assembleRaw] at h
    split at h
    · cases h
    · rename_i res1 db1 hp
      split at h
      · cases h
      · rename_i res2 db2 hp2
        simp only [Option.some.injEq, Prod.mk.injEq] at h
        rw [← h.2]
        have h1 := process_feed_count f db res1 db1 hp u hu
        have hu1 : countUrl db1 u ≤ 1 := by
          rw [h1]
          split <;> omega
        have h2 := ih db1 res2 db2 hp2 u hu1
        rw [h2, h1]
        simp only [candidateList, List.map_append, List.mem_append,
          List.map_map]
        by_cases hf : u ∈ f.map (fun e => (entryObj e).url)
        · have hf' : u ∈ f.map ((fun r => r.url) ∘ entryObj) := hf
          simp [hf, hf']
        · have hf' : ¬ u ∈ f.map ((fun r => r.url) ∘ entryObj) := hf
          by_cases hc : countUrl db u = 1
          · simp [hf, hf', hc]
          · simp only [hc, hf, or_false, false_or, if_false]
            by_cases hrest : u ∈ (candidateList fs).map (fun r => r.url)
            · simp [hf', hrest]
            · simp [hf', hrest, hc]

/-- First-seen deduplication keeps, for each url not yet seen, exactly
the first record carrying it. -/
theorem dedupBy_filter (rs : List Record) : ∀ (seen : List String)
    (u : String),
    (dedupBy seen rs).filter (fun r => r.url == u) =
      if u ∈ seen then [] else (rs.filter (fun r => r.url == u)).take 1 := by
  induction rs with
  | nil =>
    intro seen u
    simp [dedupBy]
  | cons r rs ih =>
    intro seen u
    rw [dedupBy]
    split
    · rename_i hin
      rw [ih seen u]
      by_cases hu : u ∈ seen
      · simp [hu]
      · have hne : (r.url == u) = false := by
          simp only [beq_eq_false_iff_ne, ne_eq]
          intro hc
          exact hu (hc ▸ hin)
        simp [hu, List.filter_cons, hne]
    · rename_i hnin
      by_cases hru : r.url = u
      · subst hru
        rw [List.filter_cons]
        simp only [beq_self_eq_true, if_true]
        rw [ih (r.url :: seen) r.url, if_pos (List.mem_cons_self _ _),
          if_neg hnin, List.filter_cons]
        simp
      · have hur : ¬ u = r.url := fun hc => hru hc.symm
        have hne : (r.url == u) = false := by
          simp only [beq_eq_false_iff_ne, ne_eq]
          exact hru
        simp only [List.filter_cons, hne, Bool.false_eq_true, if_false]
        rw [ih (r.url :: seen) u]
        simp [List.mem_cons, hur]

/-- The deduplicated list is a subsequence of the raw one. -/
theorem dedupBy_sublist (rs : List Record) : ∀ (seen : List String),
    (dedupBy seen rs).Sublist rs := by
  induction rs with
  | nil => intro seen; simp [dedupBy]
  | cons r rs ih =>
    intro seen
    rw [dedupBy]
    split
    · exact (ih seen).cons r
    · exact (ih (r.url :: seen)).cons₂ r

/-- The deduplicated list carries no repeated url and no url from
`seen`. -/
theorem dedupBy_nodup (rs : List Record) : ∀ (seen : List String),
    ((dedupBy seen rs).map (fun r => r.url)).Nodup ∧
    ∀ r ∈ dedupBy seen rs, ¬ r.url ∈ seen := by
  induction rs with
  | nil =>
    intro seen
    constructor
    · simp [dedupBy]
    · simp [dedupBy]
  | cons r rs ih =>
    intro seen
    rw [dedupBy]
    split
    · exact ih seen
    · rename_i hnin
      obtain ⟨ihn, ihs⟩ := ih (r.url :: seen)
      constructor
      · simp only [List.map_cons, List.nodup_cons]
        constructor
        · intro hmem
          obtain ⟨r2, hr2, hurl⟩ := List.mem_map.mp hmem
          exact ihs r2 hr2 (hurl ▸ List.mem_cons_self _ _)
        · exact ihn
      · intro r2 hr2
        rcases List.mem_cons.mp hr2 with h1 | h1
        · exact h1 ▸ hnin
        · intro hc
          exact ihs r2 h1 (List.mem_cons_of_mem _ hc)

/-- C4: a successful `assemble_feeds` call returns a candidate list
whose urls are pairwise distinct, which is a subsequence of the decoded
entries keeping for every url exactly the first record carrying it; and
on a store where a url appears at most once, the processed store holds
exactly one record with that url if it was already stored or occurs in
the call, and none otherwise — so re-processing the same entry in the
same call or a later call never duplicates a record. -/
theorem assemble_feeds_spec (feeds : List (List Entry))
    (db cands db' : List Record)
    (h : assemble_feeds db feeds = some (cands, db')) :
    (cands.map (fun r => r.url)).Nodup ∧
    cands.Sublist (candidateList feeds) ∧
    (∀ u, cands.filter (fun r => r.url == u) =
      ((candidateList feeds).filter (fun r => r.url == u)).take 1) ∧
    (∀ u, countUrl db u ≤ 1 →
      countUrl db' u =
        if countUrl db u = 1 ∨ u ∈ (candidateList feeds).map (fun r => r.url)
        then 1 else 0) := by
  unfold assemble_feeds at h
  split at h
  · cases h
  · rename_i res db2 hraw
    simp only [Option.some.injEq, Prod.mk.injEq] at h
    obtain ⟨hc, hd⟩ := h
    subst hc
    subst hd
    have hres := assembleRaw_results feeds db res db2 hraw
    subst hres
    refine ⟨(dedupBy_nodup _ []).1, dedupBy_sublist _ [], ?_, ?_⟩
    · intro u
      rw [dedupBy_filter _ [] u, if_neg (List.not_mem_nil u)]
    · intro u hu
      exact assembleRaw_count feeds db _ db2 hraw u hu

/-- C4 (witness): two payloads repeating an entry — the candidate list
contains its url once and the store ends with exactly one record for
it. -/
theorem assemble_feeds_spec_witness :
    (candsEx.map (fun r => r.url)).Nodup ∧
    countUrl dbEx "http://arxiv.org/pdf/2501.00001v1.pdf" = 1 := by
  have h := assemble_feeds_spec feedsEx [] candsEx dbEx rfl
  refine ⟨h.1, ?_⟩
  rw [h.2.2.2 "http://arxiv.org/pdf/2501.00001v1.pdf" (by decide)]
  decide

/-! ## C5 — search resumability -/

/-- Assigning a key makes it look up to the new value. -/
theorem stLookup_stSet_self (st : SState) (k v : String) :
    stLookup (stSet st k v) k = some v := by
  induction st with
  | nil => simp [stSet, stLookup]
  | cons p rest ih =>
    obtain ⟨k', v'⟩ := p
    rw [stSet]
    by_cases hk : k' = k
    · rw [if_pos hk, stLookup, if_pos rfl]
    · rw [if_neg hk, stLookup, if_neg hk, ih]

/-- Assigning a key leaves other keys' lookups alone. -/
theorem stLookup_stSet_other (st : SState) (k v k' : String) (h : k ≠ k') :
    stLookup (stSet st k v) k' = stLookup st k' := by
  induction st with
  | nil =>
    simp only [stSet, stLookup]
    rw [if_neg h]
  | cons p rest ih =>
    obtain ⟨k2, v2⟩ := p
    by_cases hk : k2 = k
    · subst hk
      simp [stSet, stLookup, h]
    · simp [stSet, stLookup, hk, ih]

/-- The skip test only reads the query's own cache entry. -/
theorem skipQ_stSet_other (force : Bool) (st : SState) (cutoff : String)
    (q : QItem) (k v : String) (h : k ≠ q.query) :
    skipQ force (stSet st k v) cutoff q = skipQ force st cutoff q := by
  rw [skipQ, skipQ, stLookup_stSet_other st k v q.query h]

/-- C5: when the queries are distinct, the earlier ones are skipped or
paginate successfully, query `qk` is due to run and its pagination hits
a fatal transport error, `execute_searches` propagates that error; the
persisted state then carries a fresh completion entry for every earlier
query that executed, the untouched old entry for every earlier query
that was skipped (which exists, since skipping requires one), and an
unchanged entry — in particular, no new one — for `qk` and everything
after it: completions are persisted per query, immediately after its
pagination loop completes, never mid-pagination. -/
theorem execute_searches_resume (net : String → Nat → Except String Page)
    (cutoff now : String) (force : Bool) (fuel : Nat) (e : String)
    (qs1 : List QItem) (qk : QItem) (qs2 : List QItem) (st0 : SState)
    (hnodup : ((qs1 ++ qk :: qs2).map QItem.query).Nodup)
    (h1 : ∀ q ∈ qs1, skipQ force st0 cutoff q = true ∨
      ∃ pgs, paginate (net q.query) q.maxResults q.start fuel =
        some (.ok pgs))
    (hkskip : skipQ force st0 cutoff qk = false)
    (hkerr : paginate (net qk.query) qk.maxResults qk.start fuel =
      some (.error e)) :
    (execute_searches net cutoff now force fuel (qs1 ++ qk :: qs2) st0).2 =
      .error (some e) ∧
    (∀ q ∈ qs1,
      stLookup (execute_searches net cutoff now force fuel
        (qs1 ++ qk :: qs2) st0).1 q.query =
      if skipQ force st0 cutoff q then stLookup st0 q.query else some now) ∧
    (∀ q ∈ qk :: qs2,
      stLookup (execute_searches net cutoff now force fuel
        (qs1 ++ qk :: qs2) st0).1 q.query = stLookup st0 q.query) ∧
    (∀ k, ¬ k ∈ (qs1 ++ qk :: qs2).map QItem.query →
      stLookup (execute_searches net cutoff now force fuel
        (qs1 ++ qk :: qs2) st0).1 k = stLookup st0 k) := by
  induction qs1 generalizing st0 with
  | nil =>
    simp only [List.nil_append] at hnodup ⊢
    simp only [execute_searches, hkskip, Bool.false_eq_true, if_false, hkerr]
    simp
  | cons q qs1' ih =>
    simp only [List.cons_append, List.map_cons, List.nodup_cons,
      List.mem_map, not_exists, not_and] at hnodup
    obtain ⟨hqnotin, hnodup'⟩ := hnodup
    have hq := h1 q (List.mem_cons_self _ _)
    by_cases hskip : skipQ force st0 cutoff q = true
    · have hrun : execute_searches net cutoff now force fuel
          ((q :: qs1') ++ qk :: qs2) st0 =
          execute_searches net cutoff now force fuel (qs1' ++ qk :: qs2) st0 := by
        simp [List.cons_append, execute_searches, hskip]
      have hih := ih st0 hnodup'
        (fun q' hq' => h1 q' (List.mem_cons_of_mem _ hq')) hkskip
      rw [hrun]
      refine ⟨hih.1, ?_, hih.2.2.1, ?_⟩
      · intro q' hq'
        rcases List.mem_cons.mp hq' with hh | hh
        · subst hh
          rw [if_pos hskip]
          apply hih.2.2.2
          intro hc
          obtain ⟨q2, hq2, hq2e⟩ := List.mem_map.mp hc
          exact hqnotin q2 hq2 hq2e
        · exact hih.2.1 q' hh
      · intro k hk
        apply hih.2.2.2
        intro hc
        apply hk
        rw [List.cons_append, List.map_cons]
        exact List.mem_cons_of_mem _ hc
    · rcases hq with hq | ⟨pgs, hpg⟩
      · exact absurd hq hskip
      · have hskipf : skipQ force st0 cutoff q = false :=
          Bool.eq_false_iff.mpr hskip
        have hst1 : ∀ q' : QItem, q'.query ≠ q.query →
            skipQ force (stSet st0 q.query now) cutoff q' =
              skipQ force st0 cutoff q' := by
          intro q' hne
          exact skipQ_stSet_other force st0 cutoff q' q.query now
            (fun hc => hne hc.symm)
        have hkne : qk.query ≠ q.query := by
          intro hc
          exact hqnotin qk (by simp) hc
        have hih := ih (stSet st0 q.query now) hnodup'
          (fun q' hq' => by
            have hne : q'.query ≠ q.query := by
              intro hc
              exact hqnotin q' (by simp [hq']) hc
            rw [hst1 q' hne]
            exact h1 q' (List.mem_cons_of_mem _ hq'))
          (by rw [hst1 qk hkne]; exact hkskip)
        have h2 : execute_searches net cutoff now force fuel
            (qs1' ++ qk :: qs2) (stSet st0 q.query now) =
            ((execute_searches net cutoff now force fuel
              (qs1' ++ qk :: qs2) (stSet st0 q.query now)).1,
             .error (some e)) := by
          rw [Prod.ext_iff]
          exact ⟨rfl, hih.1⟩
        have hrun : execute_searches net cutoff now force fuel
            ((q :: qs1') ++ qk :: qs2) st0 =
            ((execute_searches net cutoff now force fuel
              (qs1' ++ qk :: qs2) (stSet st0 q.query now)).1,
             .error (some e)) := by
          simp only [List.cons_append, execute_searches, hskipf,
            Bool.false_eq_true, if_false, hpg, List.append_eq]
          rw [h2]
        rw [hrun]
        refine ⟨rfl, ?_, ?_, ?_⟩
        · intro q' hq'
          rcases List.mem_cons.mp hq' with hh | hh
          · subst hh
            rw [if_neg hskip]
            have hfr := hih.2.2.2 q'.query (by
              intro hc
              obtain ⟨q2, hq2, hq2e⟩ := List.mem_map.mp hc
              exact hqnotin q2 hq2 hq2e)
            rw [hfr, stLookup_stSet_self]
          · have hne : q'.query ≠ q.query := by
              intro hc
              exact hqnotin q' (by simp [hh]) hc
            rw [hih.2.1 q' hh, hst1 q' hne,
              stLookup_stSet_other st0 q.query now q'.query
                (fun hc => hne hc.symm)]
        · intro q' hq'
          have hne : q'.query ≠ q.query := by
            intro hc
            rcases List.mem_cons.mp hq' with hh | hh
            · exact hqnotin qk (by simp [← hh]) (hh ▸ hc)
            · exact hqnotin q' (by simp [hh]) hc
          rw [hih.2.2.1 q' hq',
            stLookup_stSet_other st0 q.query now q'.query
              (fun hc => hne hc.symm)]
        · intro k hk
          have hkne2 : k ≠ q.query := by
            intro hc
            apply hk
            rw [List.cons_append, List.map_cons, hc]
            exact List.mem_cons_self _ _
          have hfr := hih.2.2.2 k (by
            intro hc
            apply hk
            rw [List.cons_append, List.map_cons]
            exact List.mem_cons_of_mem _ hc)
          rw [hfr, stLookup_stSet_other st0 q.query now k
            (fun hc => hkne2 hc.symm)]

/-- C5 (witness): query 1 is fresh in the cache and skipped, query 2
raises a fatal transport error, query 3 never runs; the error
propagates. -/
theorem execute_searches_resume_witness :
    (execute_searches netEx "T5" "T7" false 3 ([qEx1] ++ qEx2 :: [qEx3])
      [("qa", "T9")]).2 = .error (some "boom") :=
  (execute_searches_resume netEx "T5" "T7" false 3 "boom" [qEx1] qEx2 [qEx3]
    [("qa", "T9")] (by decide)
    (by
      intro q hq
      rw [List.mem_singleton] at hq
      subst hq
      exact Or.inl (by decide))
    (by decide) rfl).1

/-! ## C1 — timestamp normalization -/

/-- Digit characters decode to their value. -/
theorem digVal_toDigit : ∀ d < 10, digVal (toDigit d) = some d := by decide

/-- Digit characters are not `Z`. -/
theorem toDigit_ne_Z : ∀ d < 10, toDigit d ≠ 'Z' := by decide

/-- Reading back a two-digit field. -/
theorem read2_pad2 (n : Nat) (rest : List Char) :
    read2 (pad2 n ++ rest) = some (n % 100, rest) := by
  have h1 := digVal_toDigit (n / 10 % 10) (Nat.mod_lt _ (by norm_num))
  have h2 := digVal_toDigit (n % 10) (Nat.mod_lt _ (by norm_num))
  simp only [pad2, List.cons_append, List.nil_append, read2, readCh,
    Option.bind_eq_bind, Option.some_bind, h1, h2]
  have h3 : 10 * (n / 10 % 10) + n % 10 = n % 100 := by omega
  rw [h3]
  rfl

/-- Reading back a four-digit field. -/
theorem read4_pad4 (n : Nat) (rest : List Char) :
    read4 (pad4 n ++ rest) = some (n % 10000, rest) := by
  simp only [pad4, List.append_assoc, read4, Option.bind_eq_bind, read2_pad2,
    Option.some_bind]
  have h3 : 100 * (n / 100 % 100) + n % 100 % 100 = n % 10000 := by omega
  rw [h3]
  rfl

/-- Reading back an expected character. -/
theorem expectCh_cons (c : Char) (rest : List Char) :
    expectCh c (c :: rest) = some rest := by
  simp [expectCh]

/-- Every month is at most 31 days. -/
theorem monthLen_le31 : ∀ (L : Bool), ∀ m < 13, monthLen L m ≤ 31 := by decide

/-- The zero-offset suffix the `Z` replacement produces. -/
theorem parseOff_zero : parseOff ['+', '0', '0', ':', '0', '0'] = some 0 := by
  decide

/-- Parsing back a formatted timestamp body with the zero offset. -/
theorem parseTS_coreFormat (y mo dy h mi s : Nat)
    (hy1 : 1 ≤ y) (hy2 : y ≤ 9999) (hm1 : 1 ≤ mo) (hm2 : mo ≤ 12)
    (hd1 : 1 ≤ dy) (hd2 : dy ≤ monthLen (isLeapYear y) mo)
    (hh : h ≤ 23) (hmi : mi ≤ 59) (hs : s ≤ 59) :
    parseTS (coreFormat ⟨y, mo, dy⟩ h mi s ++ ['+', '0', '0', ':', '0', '0']) =
      some ⟨⟨y, mo, dy⟩, h, mi, s, 0⟩ := by
  have hy : y % 10000 = y := Nat.mod_eq_of_lt (by omega)
  have hmo : mo % 100 = mo := Nat.mod_eq_of_lt (by omega)
  have hdlen := monthLen_le31 (isLeapYear y) mo (by omega)
  have hdy : dy % 100 = dy := Nat.mod_eq_of_lt (by omega)
  have hhh : h % 100 = h := Nat.mod_eq_of_lt (by omega)
  have hmm : mi % 100 = mi := Nat.mod_eq_of_lt (by omega)
  have hss : s % 100 = s := Nat.mod_eq_of_lt (by omega)
  simp only [coreFormat, List.append_assoc, List.cons_append, parseTS,
    parseYMD, parseHMS, Option.bind_eq_bind, Option.pure_def, read4_pad4,
    Option.some_bind, expectCh_cons, read2_pad2, readCh, parseOff_zero,
    hy, hmo, hdy, hhh, hmm, hss]
  split
  · rfl
  · rename_i hcond
    exact absurd ⟨Or.inl trivial, hy1, hm1, hm2, hd1, hd2, hh, hmi, hs⟩ hcond

/-- `replace` distributes over append. -/
theorem replaceZ_append (a b : List Char) :
    replaceZ (a ++ b) = replaceZ a ++ replaceZ b := by
  induction a with
  | nil => rfl
  | cons c rest ih =>
    simp only [List.cons_append, replaceZ, List.append_eq, ih,
      List.append_assoc]

/-- `replace` leaves `Z`-free text alone. -/
theorem replaceZ_noZ (l : List Char) (h : ¬ 'Z' ∈ l) : replaceZ l = l := by
  induction l with
  | nil => rfl
  | cons c rest ih =>
    have hc : ¬ c = 'Z' := by
      intro hc
      exact h (hc ▸ List.mem_cons_self _ _)
    have hr : ¬ 'Z' ∈ rest := fun hm => h (List.mem_cons_of_mem _ hm)
    simp only [replaceZ, if_neg hc, List.singleton_append, ih hr]

/-- Padded numerals contain no `Z`. -/
theorem pad2_noZ (n : Nat) : ¬ 'Z' ∈ pad2 n := by
  intro hmem
  simp only [pad2, List.mem_cons, List.not_mem_nil, or_false] at hmem
  rcases hmem with h1 | h1 <;>
    exact toDigit_ne_Z _ (Nat.mod_lt _ (by norm_num)) h1.symm

theorem pad4_noZ (n : Nat) : ¬ 'Z' ∈ pad4 n := by
  intro hmem
  rcases List.mem_append.mp hmem with h1 | h1
  · exact pad2_noZ _ h1
  · exact pad2_noZ _ h1

/-- The formatted body contains no `Z`; only its final marker does. -/
theorem coreFormat_noZ (c : Date) (h mi s : Nat) :
    ¬ 'Z' ∈ coreFormat c h mi s := by
  simp only [coreFormat, List.mem_append, List.mem_cons]
  push_neg
  simp only [and_assoc]
  exact ⟨pad4_noZ _, by decide, pad2_noZ _, by decide, pad2_noZ _,
    by decide, pad2_noZ _, by decide, pad2_noZ _, by decide, pad2_noZ _⟩

/-- Round trip: reading back a formatted UTC timestamp recovers its
fields, with a zero offset. -/
theorem readTS_formatUTC (c : Date) (h mi s : Nat) (hv : validDate c)
    (hy2 : c.y ≤ 9999) (hh : h ≤ 23) (hmi : mi ≤ 59) (hs : s ≤ 59) :
    readTS (String.mk (formatUTC c h mi s)) = some ⟨c, h, mi, s, 0⟩ := by
  obtain ⟨hy1, hm1, hm2, hd1, hd2⟩ := hv
  obtain ⟨y, mo, dy⟩ := c
  show parseTS (replaceZ (formatUTC ⟨y, mo, dy⟩ h mi s)) = _
  rw [formatUTC, replaceZ_append, replaceZ_noZ _ (coreFormat_noZ _ _ _ _),
    show replaceZ ['Z'] = ['+', '0', '0', ':', '0', '0'] from rfl]
  exact parseTS_coreFormat y mo dy h mi s hy1 hy2 hm1 hm2 hd1 hd2 hh hmi hs

/-- The leap test, propositionally. -/
theorem isLeapYear_iff (y : Nat) :
    isLeapYear y = true ↔ (y % 4 = 0 ∧ y % 100 ≠ 0) ∨ y % 400 = 0 := by
  simp [isLeapYear, Bool.or_eq_true, Bool.and_eq_true, beq_iff_eq,
    bne_iff_ne]

/-- One more year adds one leap day exactly when the new year is a leap
year. -/
theorem leapsBefore_succ (n : Nat) :
    leapsBefore (n + 1) =
      leapsBefore n + (if isLeapYear (n + 1) then 1 else 0) := by
  by_cases hL : isLeapYear (n + 1)
  · rw [if_pos hL]
    rcases (isLeapYear_iff (n + 1)).mp hL with ⟨h4, h100⟩ | h400
    · simp only [leapsBefore]
      omega
    · simp only [leapsBefore]
      omega
  · rw [if_neg hL]
    have h : ¬(((n + 1) % 4 = 0 ∧ (n + 1) % 100 ≠ 0) ∨ (n + 1) % 400 = 0) :=
      fun hc => hL ((isLeapYear_iff (n + 1)).mpr hc)
    push_neg at h
    simp only [leapsBefore]
    omega

/-- Unfolding one month of the cumulative day count. -/
theorem daysBefore_succ (L : Bool) (m : Nat) (h : 1 ≤ m) :
    daysBefore L (m + 1) = daysBefore L m + monthLen L m := by
  obtain ⟨k, rfl⟩ : ∃ k, m = k + 1 := ⟨m - 1, by omega⟩
  rfl

/-- The year-boundary step of the ordinal. -/
theorem ordDate_year_step (y : Nat) (hy : 1 ≤ y) :
    ordDate (y + 1) 1 1 = ordDate y 12 31 + 1 := by
  have h1 : daysBefore true 12 = 335 := rfl
  have h2 : daysBefore false 12 = 334 := rfl
  have h3 : ∀ L : Bool, daysBefore L 1 = 0 := fun L => rfl
  have key : leapsBefore y =
      leapsBefore (y - 1) + (if isLeapYear y then 1 else 0) := by
    have hk := leapsBefore_succ (y - 1)
    rw [Nat.sub_add_cancel hy] at hk
    exact hk
  simp only [ordDate, Nat.add_sub_cancel, h3]
  cases hL : isLeapYear y
  · rw [hL] at key
    simp only [Bool.false_eq_true, if_false, add_zero] at key
    rw [h2]
    omega
  · rw [hL] at key
    simp only [if_true] at key
    rw [h1]
    omega

/-- Positivity of month lengths, in the bounded form the steps need. -/
theorem monthLen_pos : ∀ (L : Bool), ∀ m < 13, 1 ≤ m → 1 ≤ monthLen L m := by
  decide

/-- December has 31 days in every year. -/
theorem monthLen_twelve (L : Bool) : monthLen L 12 = 31 := rfl

/-- January has 31 days in every year. -/
theorem monthLen_one (L : Bool) : monthLen L 1 = 31 := rfl

/-- Stepping a valid date forward adds one to its ordinal. -/
theorem nextDay_ord (c : Date) (hv : validDate c) :
    ordDate (nextDay c).y (nextDay c).m (nextDay c).d =
      ordDate c.y c.m c.d + 1 := by
  obtain ⟨hy, hm1, hm2, hd1, hd2⟩ := hv
  obtain ⟨y, m, d⟩ := c
  simp only at hy hm1 hm2 hd1 hd2
  rw [nextDay]
  by_cases h1 : d < monthLen (isLeapYear y) m
  · rw [if_pos h1]
    simp only [ordDate]
    omega
  · rw [if_neg h1]
    have hd : d = monthLen (isLeapYear y) m := by omega
    by_cases h2 : m < 12
    · rw [if_pos h2]
      simp only [ordDate]
      rw [daysBefore_succ (isLeapYear y) m hm1]
      omega
    · rw [if_neg h2]
      have hm : m = 12 := by omega
      subst hm
      have hd31 : d = 31 := by rw [hd, monthLen_twelve]
      subst hd31
      exact ordDate_year_step y hy

/-- Stepping a valid date backward (staying within the calendar)
subtracts one from its ordinal. -/
theorem prevDay_ord (c : Date) (hv : validDate c)
    (hy1 : 1 ≤ (prevDay c).y) :
    ordDate (prevDay c).y (prevDay c).m (prevDay c).d + 1 =
      ordDate c.y c.m c.d := by
  obtain ⟨hy, hm1, hm2, hd1, hd2⟩ := hv
  obtain ⟨y, m, d⟩ := c
  simp only at hy hm1 hm2 hd1 hd2
  rw [prevDay] at hy1 ⊢
  by_cases h1 : 1 < d
  · rw [if_pos h1]
    simp only [ordDate]
    omega
  · rw [if_neg h1] at hy1 ⊢
    have hd : d = 1 := by omega
    subst hd
    by_cases h2 : 1 < m
    · rw [if_pos h2]
      simp only [ordDate]
      have hm' : m - 1 + 1 = m := by omega
      have hstep : daysBefore (isLeapYear y) m =
          daysBefore (isLeapYear y) (m - 1) + monthLen (isLeapYear y) (m - 1) := by
        conv_lhs => rw [← hm']
        exact daysBefore_succ _ _ (by omega)
      rw [hstep]
      omega
    · rw [if_neg h2] at hy1 ⊢
      have hm : m = 1 := by omega
      subst hm
      simp only at hy1
      obtain ⟨k, rfl⟩ : ∃ k, y = k + 2 := ⟨y - 2, by omega⟩
      have hstep := ordDate_year_step (k + 1) (by omega)
      have hk : k + 2 - 1 = k + 1 := rfl
      rw [hk]
      exact hstep.symm

/-- The calendar successor of a valid date is valid. -/
theorem nextDay_valid (c : Date) (hv : validDate c) :
    validDate (nextDay c) := by
  obtain ⟨hy, hm1, hm2, hd1, hd2⟩ := hv
  obtain ⟨y, m, d⟩ := c
  simp only at hy hm1 hm2 hd1 hd2
  rw [nextDay]
  by_cases h1 : d < monthLen (isLeapYear y) m
  · rw [if_pos h1]
    simp only [validDate]
    exact ⟨hy, hm1, hm2, by omega, by omega⟩
  · rw [if_neg h1]
    by_cases h2 : m < 12
    · rw [if_pos h2]
      simp only [validDate]
      have := monthLen_pos (isLeapYear y) (m + 1) (by omega) (by omega)
      exact ⟨hy, by omega, by omega, le_refl 1, this⟩
    · rw [if_neg h2]
      simp only [validDate]
      refine ⟨by omega, le_refl 1, by omega, le_refl 1, ?_⟩
      rw [monthLen_one]
      omega

/-- The calendar predecessor of a valid date is valid when its year
stays positive. -/
theorem prevDay_valid (c : Date) (hv : validDate c)
    (hy1 : 1 ≤ (prevDay c).y) : validDate (prevDay c) := by
  obtain ⟨hy, hm1, hm2, hd1, hd2⟩ := hv
  obtain ⟨y, m, d⟩ := c
  simp only at hy hm1 hm2 hd1 hd2
  rw [prevDay] at hy1 ⊢
  by_cases h1 : 1 < d
  · rw [if_pos h1] at hy1 ⊢
    simp only [validDate]
    exact ⟨hy, hm1, hm2, by omega, by omega⟩
  · rw [if_neg h1] at hy1 ⊢
    by_cases h2 : 1 < m
    · rw [if_pos h2] at hy1 ⊢
      simp only [validDate]
      have := monthLen_pos (isLeapYear y) (m - 1) (by omega) (by omega)
      exact ⟨hy, by omega, by omega, this, le_refl _⟩
    · rw [if_neg h2] at hy1 ⊢
      simp only at hy1
      simp only [validDate]
      refine ⟨hy1, by omega, by omega, by omega, ?_⟩
      rw [monthLen_twelve]

/-- A parsed offset is below 24 hours in magnitude. -/
theorem parseOff_bounds (l : List Char) (off : Int)
    (h : parseOff l = some off) : -86340 ≤ off ∧ off ≤ 86340 := by
  simp only [parseOff, Option.bind_eq_bind, Option.pure_def] at h
  cases h1 : readCh l with
  | none => rw [h1] at h; simp at h
  | some pr =>
    obtain ⟨sg, l1⟩ := pr
    rw [h1] at h
    simp only [Option.some_bind] at h
    cases h2 : read2 l1 with
    | none => rw [h2] at h; simp at h
    | some pr2 =>
      obtain ⟨oh, l2⟩ := pr2
      rw [h2] at h
      simp only [Option.some_bind] at h
      cases h3 : expectCh ':' l2 with
      | none => rw [h3] at h; simp at h
      | some l3 =>
        rw [h3] at h
        simp only [Option.some_bind] at h
        cases h4 : read2 l3 with
        | none => rw [h4] at h; simp at h
        | some pr4 =>
          obtain ⟨om, l4⟩ := pr4
          rw [h4] at h
          simp only [Option.some_bind] at h
          split at h
          · rename_i hcond
            obtain ⟨-, hoh, hom⟩ := hcond
            split at h
            · simp only [Option.some.injEq] at h
              subst h
              omega
            · split at h
              · simp only [Option.some.injEq] at h
                subst h
                omega
              · simp at h
          · simp at h

/-- A successfully parsed timestamp satisfies `datetime`'s field
ranges. -/
theorem parseTS_bounds (l : List Char) (dt : DT) (h : parseTS l = some dt) :
    validDate dt.date ∧ dt.h ≤ 23 ∧ dt.mi ≤ 59 ∧ dt.s ≤ 59 ∧
      -86340 ≤ dt.off ∧ dt.off ≤ 86340 := by
  simp only [parseTS, Option.bind_eq_bind, Option.pure_def] at h
  cases h1 : parseYMD l with
  | none => rw [h1] at h; simp at h
  | some q1 =>
    obtain ⟨yr, mo, dy, l1⟩ := q1
    rw [h1] at h
    simp only [Option.some_bind] at h
    cases h2 : parseHMS l1 with
    | none => rw [h2] at h; simp at h
    | some q2 =>
      obtain ⟨sep, hh, mm, ss, l2⟩ := q2
      rw [h2] at h
      simp only [Option.some_bind] at h
      cases h3 : parseOff l2 with
      | none => rw [h3] at h; simp at h
      | some off =>
        rw [h3] at h
        simp only [Option.some_bind] at h
        split at h
        · rename_i hcond
          obtain ⟨hsep, hy1, hm1, hm2, hd1, hd2, hhh, hmm, hss⟩ := hcond
          simp only [Option.some.injEq] at h
          subst h
          have hoff := parseOff_bounds l2 off h3
          exact ⟨⟨hy1, hm1, hm2, hd1, hd2⟩, hhh, hmm, hss, hoff.1, hoff.2⟩
        · simp at h

/-- Correctness of the UTC conversion: it yields a valid calendar date,
a time of day below one day, and preserves the instant. -/
theorem convDT_spec (dt : DT) (hv : validDate dt.date)
    (hh : dt.h ≤ 23) (hmi : dt.mi ≤ 59) (hs : dt.s ≤ 59)
    (ho1 : -86340 ≤ dt.off) (ho2 : dt.off ≤ 86340)
    (hy : 1 ≤ (convDT dt).1.y) :
    validDate (convDT dt).1 ∧ (convDT dt).2 < 86400 ∧
      86400 * ((ordDate (convDT dt).1.y (convDT dt).1.m (convDT dt).1.d : Nat) : Int) +
        ((convDT dt).2 : Int) = epochSec dt := by
  simp only [convDT] at hy ⊢
  by_cases h1 : ((dt.h * 3600 + dt.mi * 60 + dt.s : Nat) : Int) - dt.off < 0
  · rw [if_pos h1] at hy ⊢
    dsimp only at hy ⊢
    have hord := prevDay_ord dt.date hv hy
    have hordi : ((ordDate (prevDay dt.date).y (prevDay dt.date).m
        (prevDay dt.date).d : Nat) : Int) + 1 =
        ((ordDate dt.date.y dt.date.m dt.date.d : Nat) : Int) := by
      exact_mod_cast hord
    refine ⟨prevDay_valid dt.date hv hy, by omega, ?_⟩
    simp only [epochSec]
    omega
  · rw [if_neg h1] at hy ⊢
    by_cases h2 : (86400 : Int) ≤ ((dt.h * 3600 + dt.mi * 60 + dt.s : Nat) : Int) - dt.off
    · rw [if_pos h2] at hy ⊢
      dsimp only at hy ⊢
      have hord := nextDay_ord dt.date hv
      have hordi : ((ordDate (nextDay dt.date).y (nextDay dt.date).m
          (nextDay dt.date).d : Nat) : Int) =
          ((ordDate dt.date.y dt.date.m dt.date.d : Nat) : Int) + 1 := by
        exact_mod_cast hord
      refine ⟨nextDay_valid dt.date hv, by omega, ?_⟩
      simp only [epochSec]
      omega
    · rw [if_neg h2] at hy ⊢
      dsimp only at hy ⊢
      refine ⟨hv, by omega, ?_⟩
      simp only [epochSec]
      omega

/-- The second normalization pass reproduces a converted timestamp
unchanged. -/
theorem convDT_idem (d : Date) (t : Nat) (ht86 : t < 86400) :
    convDT ⟨d, t / 3600, t % 3600 / 60, t % 60, 0⟩ = (d, t) := by
  simp only [convDT]
  have hsum : t / 3600 * 3600 + t % 3600 / 60 * 60 + t % 60 = t := by omega
  rw [hsum, sub_zero]
  rw [if_neg (not_lt.mpr (Int.natCast_nonneg _))]
  rw [if_neg (by exact_mod_cast not_le.mpr ht86)]
  rw [Int.toNat_natCast]

/-- C1: whenever `_normalize_date` accepts an input and returns a
string, that string parses back to the same UTC instant with a zero
offset, is formatted exactly as `YYYY-MM-DDTHH:MM:SSZ` over a valid
calendar date and in-range time of day, and normalizing it again
returns it unchanged. -/
theorem normalize_date_spec (s out : String)
    (h : _normalize_date s = some out) :
    (∃ dt dt2 : DT, readTS s = some dt ∧ readTS out = some dt2 ∧
      dt2.off = 0 ∧ epochSec dt2 = epochSec dt) ∧
    (∃ (d : Date) (hh mm ss : Nat), validDate d ∧ hh ≤ 23 ∧ mm ≤ 59 ∧
      ss ≤ 59 ∧ out = String.mk (formatUTC d hh mm ss)) ∧
    _normalize_date out = some out := by
  simp only [_normalize_date] at h
  cases hr : readTS s with
  | none => rw [hr] at h; simp at h
  | some dt =>
    rw [hr] at h
    dsimp only at h
    split at h
    · rename_i hguard
      obtain ⟨hgy1, hgy2⟩ := hguard
      simp only [Option.some.injEq] at h
      subst h
      have hrr : parseTS (replaceZ s.data) = some dt := hr
      obtain ⟨hv, hbh, hbmi, hbs, hbo1, hbo2⟩ :=
        parseTS_bounds (replaceZ s.data) dt hrr
      obtain ⟨hvd, ht86, hep⟩ := convDT_spec dt hv hbh hbmi hbs hbo1 hbo2 hgy1
      have hrt := readTS_formatUTC (convDT dt).1 ((convDT dt).2 / 3600)
        ((convDT dt).2 % 3600 / 60) ((convDT dt).2 % 60) hvd hgy2
        (by omega) (by omega) (by omega)
      refine ⟨?_, ?_, ?_⟩
      · refine ⟨dt, ⟨(convDT dt).1, (convDT dt).2 / 3600,
          (convDT dt).2 % 3600 / 60, (convDT dt).2 % 60, 0⟩, rfl, hrt, rfl, ?_⟩
        simp only [epochSec] at hep ⊢
        omega
      · exact ⟨(convDT dt).1, (convDT dt).2 / 3600,
          (convDT dt).2 % 3600 / 60, (convDT dt).2 % 60, hvd,
          by omega, by omega, by omega, rfl⟩
      · simp only [_normalize_date]
        rw [hrt]
        dsimp only
        rw [convDT_idem (convDT dt).1 (convDT dt).2 ht86]
        dsimp only
        rw [if_pos ⟨hgy1, hgy2⟩]
    · simp at h

/-- C1 (witness): the spec's example input, normalized and
re-normalized. -/
theorem normalize_date_spec_witness :
    _normalize_date "2025-06-15T15:00:00+03:00" =
      some "2025-06-15T12:00:00Z" ∧
    _normalize_date "2025-06-15T12:00:00Z" =
      some "2025-06-15T12:00:00Z" :=
  ⟨rfl, (normalize_date_spec "2025-06-15T15:00:00+03:00"
    "2025-06-15T12:00:00Z" rfl).2.2⟩
